import Mathlib

/-!
# Formal model of the e-commerce dashboard's data transforms

This file gives a shallow embedding of the data pipeline in
`src/dashboard/dashboard.py` and proves the specified properties of its
transforms.

Modelling conventions:
* A dataframe is a `List` of records; a record is a structure whose fields
  mirror the columns the script touches.
* Timestamps (`order_approved_at`) are natural numbers counting seconds;
  the calendar day of a timestamp is `t / 86400`.  `pd.resample('D', on=c)`
  buckets rows into consecutive calendar days spanning the minimum to the
  maximum day of column `c`, with empty buckets present (sum 0, nunique 0),
  which is modelled by mapping an aggregator over `List.range'` of the span.
* Monetary values (`payment_value`) are rationals.
* A nullable CSV cell (geolocation latitude/longitude, which can be NaN)
  is an `Option ℚ`.
* `df.drop_duplicates(subset=[k])` (keep='first', the pandas default) is
  `keepFirstBy`: it keeps the first row bearing each key, in order.
* `Series.value_counts()` followed by `.sort_values(ascending=False)`
  yields the distinct values in order of first occurrence, paired with
  their multiplicities, stably sorted by descending count; `idxmax` on the
  result returns the label of the first occurrence of the maximal count,
  and raises `ValueError` on an empty series, modelled by `Option.none`.
* `df[cond]` filtering and `merge(how='left')` keep the source's row order.
  Comparing a datetime column against `str(date)` compares against the
  *midnight* timestamp of that date, which the model makes explicit via
  `dayStart`.
-/

namespace Dashboard

/-- Seconds per calendar day; used to convert timestamps to day numbers. -/
def secondsPerDay : ℕ := 86400

/-- The calendar day containing a timestamp. -/
def dayOf (t : ℕ) : ℕ := t / secondsPerDay

/-- The midnight timestamp of a calendar day (what `str(date)` parses to
when pandas compares a datetime column against it). -/
def dayStart (d : ℕ) : ℕ := d * secondsPerDay

/-- One row of the combined orders dataframe (`all_df`), with the columns
the script reads. -/
structure Row where
  order_id : ℕ
  order_approved_at : ℕ
  payment_value : ℚ
  product_category_name_english : String
  product_id : ℕ
  customer_id : ℕ
  customer_state : String
  review_score : ℕ
  customer_zip : ℕ
deriving DecidableEq, Repr

/-- One row of the geolocation dataframe: a zip prefix with nullable
latitude/longitude cells. -/
structure GeoRow where
  geolocation_zip : ℕ
  geolocation_lat : Option ℚ
  geolocation_lng : Option ℚ
deriving DecidableEq, Repr

/-- One row of the left-merged customers×geolocation dataframe: the customer
row plus the matched geolocation row (`none` when no zip match, in which
case all geolocation columns read as NaN). -/
structure MergedRow where
  left : Row
  geo : Option GeoRow
deriving DecidableEq, Repr

/-- The `geolocation_lng` column of a merged row (NaN as `none`). -/
def MergedRow.lngVal (m : MergedRow) : Option ℚ :=
  m.geo.bind GeoRow.geolocation_lng

/-- The `geolocation_lat` column of a merged row (NaN as `none`). -/
def MergedRow.latVal (m : MergedRow) : Option ℚ :=
  m.geo.bind GeoRow.geolocation_lat

/-- Helper for `keepFirstBy`: drop every row whose key was already seen. -/
def keepFirstByAux {α β : Type} [DecidableEq β] (f : α → β) :
    List β → List α → List α
  | _, [] => []
  | seen, a :: l =>
    if f a ∈ seen then keepFirstByAux f seen l
    else a :: keepFirstByAux f (f a :: seen) l

/-- `df.drop_duplicates(subset=[key], keep='first')`: keep, for each key,
the first row bearing it, preserving row order. -/
def keepFirstBy {α β : Type} [DecidableEq β] (f : α → β) (l : List α) :
    List α :=
  keepFirstByAux f [] l

/-- `load_geolocation` (dashboard.py:20-23) modulo the CSV read: drop
duplicate rows by zip prefix, keeping the first. -/
def load_geolocation (gs : List GeoRow) : List GeoRow :=
  keepFirstBy GeoRow.geolocation_zip gs

/-- `merge_customer_geolocation` (dashboard.py:25-26): left outer join on
zip-prefix equality.  Each customer row is paired with every matching
geolocation row, or with `none` when no row matches. -/
def merge_customer_geolocation (cs : List Row) (gs : List GeoRow) :
    List MergedRow :=
  cs.flatMap (fun c =>
    let ms := gs.filter (fun g => g.geolocation_zip == c.customer_zip)
    if ms.isEmpty then [⟨c, none⟩] else ms.map (fun g => ⟨c, some g⟩))

/-- The point geometry the script builds for a merged row
(dashboard.py:82): `Point(lng, lat)` when `lng` is non-null — note only
the longitude is tested — else the null geometry.  The `y` coordinate is
an `Option` because `Point` accepts a NaN latitude. -/
structure GeoPoint where
  x : ℚ
  y : Option ℚ
deriving DecidableEq, Repr

/-- The `geometry` column: `Point(x['geolocation_lng'], x['geolocation_lat'])
if pd.notnull(x['geolocation_lng']) else None`. -/
def rowGeometry (m : MergedRow) : Option GeoPoint :=
  match m.lngVal with
  | some x => some ⟨x, m.latVal⟩
  | none => none

/-- `customers_gdf` (dashboard.py:82-83): attach the geometry column, then
`dropna(subset=['geometry'])`, keeping row order. -/
def customers_gdf (rows : List MergedRow) : List (MergedRow × GeoPoint) :=
  rows.filterMap (fun m => (rowGeometry m).map (fun g => (m, g)))

/-- `filtered_df` (dashboard.py:94-95): keep the rows whose approval
timestamp is between `str(start_date)` and `str(end_date)` inclusive —
i.e. between the *midnight* timestamps of the two selected days. -/
def filtered_df (df : List Row) (s e : ℕ) : List Row :=
  df.filter (fun r =>
    decide (dayStart s ≤ r.order_approved_at) &&
    decide (r.order_approved_at ≤ dayStart e))

/-- The day numbers of every row's approval timestamp, in row order. -/
def approvedDays (df : List Row) : List ℕ :=
  df.map (fun r => dayOf r.order_approved_at)

/-- The consecutive calendar days produced by `resample('D',
on='order_approved_at')`: every day from the minimum to the maximum
approval day, inclusive; empty for an empty frame. -/
def daySpan (df : List Row) : List ℕ :=
  match (approvedDays df).min?, (approvedDays df).max? with
  | some a, some b => List.range' a (b - a + 1)
  | _, _ => []

/-- The rows of a frame falling in one calendar-day bucket. -/
def rowsOn (df : List Row) (d : ℕ) : List Row :=
  df.filter (fun r => dayOf r.order_approved_at == d)

/-- `nunique` of the `order_id` column. -/
def nuniqueOrders (df : List Row) : ℕ :=
  (df.map Row.order_id).dedup.length

/-- `sum` of the `payment_value` column. -/
def sumPayments (df : List Row) : ℚ :=
  (df.map Row.payment_value).sum

/-- One output row of `prepare_daily_orders`. -/
structure DailyRow where
  day : ℕ
  total_orders : ℕ
  total_revenue : ℚ
deriving DecidableEq, Repr

/-- `prepare_daily_orders` (dashboard.py:41-50): resample to calendar days,
count distinct order ids and sum payment values per day. -/
def prepare_daily_orders (df : List Row) : List DailyRow :=
  (daySpan df).map (fun d =>
    ⟨d, nuniqueOrders (rowsOn df d), sumPayments (rowsOn df d)⟩)

/-- `compute_total_spending` (dashboard.py:52-55): resample to calendar
days, sum payment values per day. -/
def compute_total_spending (df : List Row) : List (ℕ × ℚ) :=
  (daySpan df).map (fun d => (d, sumPayments (rowsOn df d)))

/-- Stable insertion into a list ordered by the Boolean relation `le`:
`a` goes in front of the first element `b` with `le a b`. -/
def insertLe {α : Type} (le : α → α → Bool) (a : α) : List α → List α
  | [] => [a]
  | b :: l => if le a b then a :: b :: l else b :: insertLe le a l

/-- Stable sort by the Boolean relation `le` (insertion sort): models a
pandas `sort_values`, which keeps the original order of tied rows. -/
def sortLe {α : Type} (le : α → α → Bool) : List α → List α
  | [] => []
  | a :: l => insertLe le a (sortLe le l)

/-- Descending-by-count order for (value, count) pairs. -/
def countDesc {α : Type} (p q : α × ℕ) : Bool :=
  decide (q.2 ≤ p.2)

/-- Ascending order on strings, used for pandas' sorted groupby keys. -/
def strAsc (a b : String) : Bool :=
  decide (a ≤ b)

/-- `aggregate_products` (dashboard.py:57-60): group by category (groupby
sorts keys), count `product_id` per group, then sort descending by count. -/
def aggregate_products (df : List Row) : List (String × ℕ) :=
  sortLe countDesc
    ((sortLe strAsc
        (keepFirstBy (fun c => c)
          (df.map Row.product_category_name_english))).map
      (fun c =>
        (c, (df.filter
              (fun r => r.product_category_name_english == c)).length)))

/-- `customer_distribution_by_state` (dashboard.py:62-65): group by state,
count distinct customer ids per group, sort descending by count. -/
def customer_distribution_by_state (df : List Row) : List (String × ℕ) :=
  sortLe countDesc
    ((sortLe strAsc
        (keepFirstBy (fun c => c) (df.map Row.customer_state))).map
      (fun st =>
        (st, ((df.filter (fun r => r.customer_state == st)).map
               Row.customer_id).dedup.length)))

/-- `analyze_top_low_products` (dashboard.py:71-74): group by category
(groupby sorts keys), count `order_id` per group. -/
def analyze_top_low_products (df : List Row) : List (String × ℕ) :=
  (sortLe strAsc
      (keepFirstBy (fun c => c)
        (df.map Row.product_category_name_english))).map
    (fun c =>
      (c, (df.filter (fun r => r.product_category_name_english == c)).length))

/-- `df['review_score'].value_counts().sort_values(ascending=False)`: the
distinct scores in order of first occurrence paired with their counts,
stably sorted by descending count. -/
def value_counts (df : List Row) : List (ℕ × ℕ) :=
  let sl := df.map Row.review_score
  sortLe countDesc ((keepFirstBy (fun s => s) sl).map (fun s => (s, sl.count s)))

/-- `Series.idxmax`: the label of the first occurrence of the maximal
value, or `none` for an empty series (pandas raises `ValueError`). -/
def idxmax (l : List (ℕ × ℕ)) : Option ℕ :=
  match l with
  | [] => none
  | p :: ps => some (ps.foldl (fun best q => if best.2 < q.2 then q else best) p).1

/-- `analyze_review_scores` (dashboard.py:67-69): the review-score
histogram sorted by descending count, and its `idxmax` (the mode; `none`
models the `ValueError` pandas raises on an empty frame). -/
def analyze_review_scores (df : List Row) : List (ℕ × ℕ) × Option ℕ :=
  (value_counts df, idxmax (value_counts df))

/-! ## Lemmas about `keepFirstBy` -/

theorem mem_keepFirstByAux {α β : Type} [DecidableEq β] {f : α → β}
    {l : List α} {x : α} :
    ∀ {seen : List β}, x ∈ keepFirstByAux f seen l → x ∈ l ∧ f x ∉ seen := by
  induction l with
  | nil => intro seen hx; simp [keepFirstByAux] at hx
  | cons a t ih =>
    intro seen hx
    simp only [keepFirstByAux] at hx
    by_cases h : f a ∈ seen
    · rw [if_pos h] at hx
      obtain ⟨h1, h2⟩ := ih hx
      exact ⟨List.mem_cons_of_mem _ h1, h2⟩
    · rw [if_neg h] at hx
      rcases List.mem_cons.1 hx with rfl | hx
      · exact ⟨List.mem_cons_self _ _, h⟩
      · obtain ⟨h1, h2⟩ := ih hx
        simp only [List.mem_cons, not_or] at h2
        exact ⟨List.mem_cons_of_mem _ h1, h2.2⟩

theorem mem_keepFirstByAux_of_mem {α : Type} [DecidableEq α] {l : List α}
    {x : α} : ∀ {seen : List α}, x ∈ l → x ∉ seen →
    x ∈ keepFirstByAux (fun s => s) seen l := by
  induction l with
  | nil => intro seen hx _; simp at hx
  | cons a t ih =>
    intro seen hx hseen
    simp only [keepFirstByAux]
    by_cases h : a ∈ seen
    · rw [if_pos h]
      rcases List.mem_cons.1 hx with rfl | hx
      · exact absurd h hseen
      · exact ih hx hseen
    · rw [if_neg h]
      rcases List.mem_cons.1 hx with rfl | hx
      · exact List.mem_cons_self _ _
      · by_cases hxa : x = a
        · subst hxa; exact List.mem_cons_self _ _
        · refine List.mem_cons_of_mem _ (ih hx ?_)
          simp only [List.mem_cons, not_or]
          exact ⟨hxa, hseen⟩

theorem keepFirstByAux_keys_nodup {α β : Type} [DecidableEq β] (f : α → β)
    (l : List α) : ∀ (seen : List β),
    ((keepFirstByAux f seen l).map f).Nodup := by
  induction l with
  | nil => intro seen; simp [keepFirstByAux]
  | cons a t ih =>
    intro seen
    simp only [keepFirstByAux]
    by_cases h : f a ∈ seen
    · rw [if_pos h]; exact ih seen
    · rw [if_neg h]
      simp only [List.map_cons, List.nodup_cons]
      refine ⟨fun hmem => ?_, ih (f a :: seen)⟩
      obtain ⟨y, hy, hfy⟩ := List.mem_map.1 hmem
      have h2 := (mem_keepFirstByAux hy).2
      simp only [List.mem_cons, not_or] at h2
      exact h2.1 hfy

theorem keepFirstByAux_eq_self {α β : Type} [DecidableEq β] (f : α → β)
    (l : List α) : ∀ (seen : List β), (∀ x ∈ l, f x ∉ seen) →
    (l.map f).Nodup → keepFirstByAux f seen l = l := by
  induction l with
  | nil => intro seen _ _; rfl
  | cons a t ih =>
    intro seen hseen hnd
    have ha : f a ∉ seen := hseen a (List.mem_cons_self a t)
    simp only [List.map_cons, List.nodup_cons] at hnd
    simp only [keepFirstByAux, if_neg ha]
    congr 1
    refine ih (f a :: seen) (fun x hx => ?_) hnd.2
    simp only [List.mem_cons, not_or]
    exact ⟨fun he => hnd.1 (he ▸ List.mem_map_of_mem f hx),
      hseen x (List.mem_cons_of_mem _ hx)⟩

theorem filter_keepFirstByAux {α β : Type} [DecidableEq β] (f : α → β)
    (z : β) (l : List α) :
    ∀ (seen : List β),
      (keepFirstByAux f seen l).filter (fun x => f x == z) =
        if z ∈ seen then [] else (l.find? (fun x => f x == z)).toList := by
  induction l with
  | nil =>
    intro seen
    by_cases hz : z ∈ seen <;> simp [keepFirstByAux, hz]
  | cons a t ih =>
    intro seen
    simp only [keepFirstByAux]
    by_cases h : f a ∈ seen
    · rw [if_pos h, ih seen]
      by_cases hz : z ∈ seen
      · rw [if_pos hz, if_pos hz]
      · rw [if_neg hz, if_neg hz]
        have hne : ¬((f a == z) = true) := by
          simp only [beq_iff_eq]
          exact fun he => hz (he ▸ h)
        rw [List.find?_cons_of_neg (p := fun x => f x == z) t hne]
    · rw [if_neg h]
      by_cases haz : f a = z
      · subst haz
        rw [List.filter_cons_of_pos (by simp), ih (f a :: seen),
          if_pos (List.mem_cons_self _ _), if_neg h,
          List.find?_cons_of_pos (p := fun x => f x == f a) t (by simp)]
        rfl
      · rw [List.filter_cons_of_neg (by simp [haz]), ih (f a :: seen)]
        by_cases hz : z ∈ seen
        · rw [if_pos (List.mem_cons_of_mem _ hz), if_pos hz]
        · have : z ∉ f a :: seen := by
            simp only [List.mem_cons, not_or]
            exact ⟨fun he => haz he.symm, hz⟩
          rw [if_neg this, if_neg hz,
            List.find?_cons_of_neg (p := fun x => f x == z) t (by simp [haz])]

/-! ## C7 and C8: deduplication of the geolocation table -/

/-- C7: for every geolocation table and every zip prefix, the rows of
`load_geolocation`'s output bearing that prefix are exactly the first row
of the input bearing it (one row if the prefix occurs, none otherwise), so
each prefix maps to exactly one coordinate pair — its first occurrence's. -/
theorem c7_dedup_keeps_first (gs : List GeoRow) (z : ℕ) :
    (load_geolocation gs).filter (fun g => g.geolocation_zip == z) =
      (gs.find? (fun g => g.geolocation_zip == z)).toList := by
  have h := filter_keepFirstByAux GeoRow.geolocation_zip z gs []
  simpa [load_geolocation, keepFirstBy] using h

/-- C8: the zip-prefix deduplication performed by `load_geolocation` is
idempotent: applying it twice equals applying it once. -/
theorem c8_dedup_idempotent (gs : List GeoRow) :
    load_geolocation (load_geolocation gs) = load_geolocation gs := by
  unfold load_geolocation keepFirstBy
  exact keepFirstByAux_eq_self _ _ _ (by simp)
    (keepFirstByAux_keys_nodup GeoRow.geolocation_zip gs [])

/-! ## C4: the left join keeps every customer row -/

/-- C4: every row of the customers table appears in the output of
`merge_customer_geolocation` (a left outer join on zip-prefix equality),
and a row whose zip prefix matches no geolocation row appears with an
absent geolocation record — all coordinate fields null — rather than
being dropped or raising. -/
theorem c4_left_join_total (cs : List Row) (gs : List GeoRow) (c : Row)
    (hc : c ∈ cs) :
    (∃ m ∈ merge_customer_geolocation cs gs, m.left = c) ∧
    ((∀ g ∈ gs, g.geolocation_zip ≠ c.customer_zip) →
      MergedRow.mk c none ∈ merge_customer_geolocation cs gs) := by
  cases hms : gs.filter (fun g => g.geolocation_zip == c.customer_zip) with
  | nil =>
    have hmem : MergedRow.mk c none ∈ merge_customer_geolocation cs gs := by
      simp only [merge_customer_geolocation]
      refine List.mem_flatMap.2 ⟨c, hc, ?_⟩
      simp [hms]
    exact ⟨⟨⟨c, none⟩, hmem, rfl⟩, fun _ => hmem⟩
  | cons g t =>
    have hg : g ∈ gs.filter (fun g => g.geolocation_zip == c.customer_zip) := by
      rw [hms]; exact List.mem_cons_self _ _
    have hg2 := List.mem_filter.1 hg
    refine ⟨⟨⟨c, some g⟩, ?_, rfl⟩, fun hall => ?_⟩
    · simp only [merge_customer_geolocation]
      refine List.mem_flatMap.2 ⟨c, hc, ?_⟩
      simp [hms]
    · exact absurd (by simpa using hg2.2) (hall g hg2.1)

/-- A customer row whose zip prefix (1) has a geolocation match. -/
def wCustomerA : Row := ⟨1, 0, 10, "beleza_saude", 11, 101, "SP", 5, 1⟩

/-- A customer row whose zip prefix (2) has no geolocation match. -/
def wCustomerB : Row := ⟨2, 0, 20, "pet_shop", 12, 102, "RJ", 4, 2⟩

/-- A geolocation row for zip prefix 1. -/
def wGeoRow : GeoRow := ⟨1, some 5, some 6⟩

/-- Witness for C4 at a concrete input: the unmatched customer row
`wCustomerB` survives the join, with null coordinates. -/
theorem c4_witness :
    (∃ m ∈ merge_customer_geolocation [wCustomerA, wCustomerB] [wGeoRow],
      m.left = wCustomerB) ∧
    ((∀ g ∈ [wGeoRow], g.geolocation_zip ≠ wCustomerB.customer_zip) →
      MergedRow.mk wCustomerB none ∈
        merge_customer_geolocation [wCustomerA, wCustomerB] [wGeoRow]) :=
  c4_left_join_total [wCustomerA, wCustomerB] [wGeoRow] wCustomerB (by decide)

/-! ## C9: daily spending is the per-day sum of payment values -/

/-- C9: every value the daily-spending aggregation assigns to a calendar
day is the sum of the payment values of exactly the rows whose approval
timestamp falls on that day. -/
theorem c9_daily_spending (df : List Row) (d : ℕ) (v : ℚ)
    (h : (d, v) ∈ compute_total_spending df) :
    v = sumPayments (rowsOn df d) := by
  simp only [compute_total_spending, List.mem_map] at h
  obtain ⟨d', _, he⟩ := h
  obtain ⟨rfl, rfl⟩ := Prod.mk.injEq .. ▸ he
  rfl

/-- Three orders with payment values 10, 20 and 30, all approved during
calendar day 0 (the spec's worked example). -/
def spendDf : List Row :=
  [⟨1, 0, 10, "a", 1, 1, "SP", 5, 0⟩,
   ⟨2, 100, 20, "a", 1, 2, "SP", 5, 0⟩,
   ⟨3, 200, 30, "a", 1, 3, "SP", 5, 0⟩]

/-- Witness for C9: daily spending of day 0 for payments [10, 20, 30] all
approved that day is 60. -/
theorem c9_witness : (60 : ℚ) = sumPayments (rowsOn spendDf 0) :=
  c9_daily_spending spendDf 0 60 (by
    simp [compute_total_spending, daySpan, approvedDays, spendDf, dayOf,
      secondsPerDay, rowsOn, sumPayments]
    norm_num)

/-! ## C3: the date filter compares against midnight timestamps -/

/-- A row approved at 01:00 on calendar day 0. -/
def lateRow : Row := ⟨1, 3600, 10, "a", 1, 1, "SP", 5, 0⟩

/-- Counterexample to C3 as stated: selecting the range [day 0, day 0]
drops `lateRow` even though it was approved during the end date (day 0),
because the filter compares against `str(end)` = midnight of day 0.  So it
is not the case that a row approved at any time during the end date is
retained. -/
theorem c3_cex :
    dayOf lateRow.order_approved_at = 0 ∧ filtered_df [lateRow] 0 0 = [] := by
  constructor <;> rfl

/-- C3 amended: the filtered table holds exactly the rows of the input
whose approval timestamp lies in the closed interval between the
*midnight timestamps* of the start and end days; rows approved strictly
after 00:00:00 of the end day are excluded.  (Each aggregate is a function
applied to this filtered list, so aggregates are computed from the
filtered set only, by construction.) -/
theorem c3_amended (df : List Row) (s e : ℕ) (r : Row) :
    r ∈ filtered_df df s e ↔
      r ∈ df ∧ dayStart s ≤ r.order_approved_at ∧
        r.order_approved_at ≤ dayStart e := by
  simp [filtered_df, List.mem_filter]

/-- Witness for C3 (amended): a row approved at 01:00 of day 0 is kept
when the end day is 1. -/
theorem c3_witness : lateRow ∈ filtered_df [lateRow] 0 1 :=
  (c3_amended [lateRow] 0 1 lateRow).mpr ⟨by decide, by decide, by decide⟩

/-! ## C2: aggregates of an empty filtered table -/

/-- Counterexample to C2 as stated: `analyze_review_scores` on the empty
table does not return an empty histogram without error — its mode
computation is `Series.idxmax` on an empty series, which raises
`ValueError` in pandas (modelled as `none`). -/
theorem c2_cex : (analyze_review_scores ([] : List Row)).2 = none := rfl

/-- C2 amended: an inverted date range (end day before start day) filters
the table to the empty list, and on the empty table five of the six
aggregations return an empty aggregate; `analyze_review_scores` returns an
empty histogram but its mode computation errors (`idxmax` of an empty
series, modelled as `none`) instead of succeeding. -/
theorem c2_amended (df : List Row) (s e : ℕ) (h : e < s) :
    filtered_df df s e = [] ∧
    prepare_daily_orders [] = [] ∧
    compute_total_spending [] = [] ∧
    aggregate_products [] = [] ∧
    customer_distribution_by_state [] = [] ∧
    analyze_top_low_products [] = [] ∧
    (analyze_review_scores []).1 = [] ∧
    (analyze_review_scores []).2 = none := by
  refine ⟨?_, rfl, rfl, rfl, rfl, rfl, rfl, rfl⟩
  refine List.filter_eq_nil_iff.2 (fun r _ => ?_)
  simp only [Bool.and_eq_true, decide_eq_true_eq, not_and]
  intro h1 h2
  have hlt : dayStart e < dayStart s :=
    Nat.mul_lt_mul_of_lt_of_le h (le_refl secondsPerDay) (by decide)
  omega

/-- Witness for C2 (amended) at a concrete inverted range (start day 3,
end day 1). -/
theorem c2_witness :
    filtered_df spendDf 3 1 = [] ∧
    prepare_daily_orders [] = [] ∧
    compute_total_spending [] = [] ∧
    aggregate_products [] = [] ∧
    customer_distribution_by_state [] = [] ∧
    analyze_top_low_products [] = [] ∧
    (analyze_review_scores []).1 = [] ∧
    (analyze_review_scores []).2 = none :=
  c2_amended spendDf 3 1 (by decide)

/-! ## C6: geometry construction tests only the longitude -/

/-- A customer row with zip prefix 7. -/
def cexCustomer : Row := ⟨1, 0, 10, "a", 1, 1, "SP", 5, 7⟩

/-- A geolocation row for zip 7 whose latitude cell is missing but whose
longitude is present. -/
def cexGeoRow : GeoRow := ⟨7, none, some 1⟩

/-- Counterexample to C6 as stated: joining `cexCustomer` with `cexGeoRow`
yields a row with a missing latitude, yet the geometry-construction step
keeps it (with a point whose latitude coordinate is NaN), because the code
tests only `pd.notnull(x['geolocation_lng'])`.  So it is not the case that
every row with a missing latitude is excluded. -/
theorem c6_cex :
    customers_gdf (merge_customer_geolocation [cexCustomer] [cexGeoRow]) =
      [(⟨cexCustomer, some cexGeoRow⟩, ⟨1, none⟩)] ∧
    MergedRow.latVal ⟨cexCustomer, some cexGeoRow⟩ = none := by
  constructor <;> rfl

/-- C6 amended: the geometry-construction step drops exactly the rows with
a missing *longitude*: a row survives iff its longitude is present, in
which case its geometry is the point built from that longitude and its
(possibly missing) latitude.  Rows with a present longitude and a missing
latitude are retained. -/
theorem c6_amended (rows : List MergedRow) (m : MergedRow) (g : GeoPoint) :
    (m, g) ∈ customers_gdf rows ↔
      m ∈ rows ∧ ∃ x, m.lngVal = some x ∧ g = ⟨x, m.latVal⟩ := by
  simp only [customers_gdf, List.mem_filterMap]
  constructor
  · rintro ⟨m', hm', he⟩
    cases hg : rowGeometry m' with
    | none => rw [hg] at he; simp at he
    | some g' =>
      rw [hg] at he
      simp only [Option.map_some', Option.some.injEq, Prod.mk.injEq] at he
      obtain ⟨rfl, rfl⟩ := he
      refine ⟨hm', ?_⟩
      unfold rowGeometry at hg
      cases hx : m'.lngVal with
      | none => rw [hx] at hg; simp at hg
      | some x =>
        rw [hx] at hg
        simp only [Option.some.injEq] at hg
        exact ⟨x, rfl, hg.symm⟩
  · rintro ⟨hm, x, hx, rfl⟩
    refine ⟨m, hm, ?_⟩
    unfold rowGeometry
    rw [hx]
    rfl

/-- Witness for C6 (amended): the missing-latitude row built from
`cexGeoRow` is in the geometry output. -/
theorem c6_witness :
    (⟨⟨cexCustomer, some cexGeoRow⟩, ⟨1, none⟩⟩ :
        MergedRow × GeoPoint) ∈
      customers_gdf [⟨cexCustomer, some cexGeoRow⟩] :=
  (c6_amended [⟨cexCustomer, some cexGeoRow⟩] ⟨cexCustomer, some cexGeoRow⟩
    ⟨1, none⟩).mpr ⟨by decide, 1, rfl, rfl⟩

/-! ## C10: the daily aggregations cover the span with no gaps -/

theorem daySpan_eq (df : List Row) (a b : ℕ)
    (ha : (approvedDays df).min? = some a)
    (hb : (approvedDays df).max? = some b) :
    daySpan df = List.range' a (b - a + 1) := by
  unfold daySpan
  rw [ha, hb]

/-- C10: for a table with minimum approval day `a` and maximum approval
day `b`, both daily aggregations output exactly one row per calendar day
of `[a, b]`, in order, with no gaps; a day `d` in the span on which no
order was approved appears with a distinct-order count of 0 and a
payment-value sum of 0 rather than being omitted. -/
theorem c10_no_gaps (df : List Row) (a b d : ℕ)
    (ha : (approvedDays df).min? = some a)
    (hb : (approvedDays df).max? = some b)
    (h1 : a ≤ d) (h2 : d ≤ b) :
    (prepare_daily_orders df).map DailyRow.day = List.range' a (b - a + 1) ∧
    (compute_total_spending df).map Prod.fst = List.range' a (b - a + 1) ∧
    d ∈ (prepare_daily_orders df).map DailyRow.day ∧
    (rowsOn df d = [] →
      DailyRow.mk d 0 0 ∈ prepare_daily_orders df ∧
      (d, (0 : ℚ)) ∈ compute_total_spending df) := by
  have hspan := daySpan_eq df a b ha hb
  have hdays1 : (prepare_daily_orders df).map DailyRow.day = daySpan df := by
    rw [prepare_daily_orders, List.map_map]
    exact List.map_id _
  have hdays2 : (compute_total_spending df).map Prod.fst = daySpan df := by
    rw [compute_total_spending, List.map_map]
    exact List.map_id _
  have hd : d ∈ daySpan df := by
    rw [hspan, List.mem_range'_1]
    omega
  refine ⟨hspan ▸ hdays1, hspan ▸ hdays2, hdays1 ▸ hd, fun hno => ⟨?_, ?_⟩⟩
  · exact List.mem_map.2 ⟨d, hd, by rw [hno]; rfl⟩
  · exact List.mem_map.2 ⟨d, hd, by rw [hno]; rfl⟩

/-- Orders on days 0 and 2 only: day 1 is a gap day. -/
def gapDf : List Row :=
  [⟨1, 0, 10, "a", 1, 1, "SP", 5, 0⟩,
   ⟨2, 172800, 20, "a", 1, 2, "SP", 5, 0⟩]

/-- Witness for C10: with orders only on days 0 and 2, day 1 still gets a
row, with zero orders and zero spending. -/
theorem c10_witness :
    (prepare_daily_orders gapDf).map DailyRow.day = List.range' 0 3 ∧
    (compute_total_spending gapDf).map Prod.fst = List.range' 0 3 ∧
    1 ∈ (prepare_daily_orders gapDf).map DailyRow.day ∧
    (rowsOn gapDf 1 = [] →
      DailyRow.mk 1 0 0 ∈ prepare_daily_orders gapDf ∧
      (1, (0 : ℚ)) ∈ compute_total_spending gapDf) :=
  c10_no_gaps gapDf 0 2 1 rfl rfl (by decide) (by decide)

/-! ## C1: per-day distinct order counts versus the global distinct count -/

/-- One order id whose two rows are approved on two different calendar
days (days 0 and 1). -/
def splitOrder : List Row :=
  [⟨1, 0, 10, "a", 1, 1, "SP", 5, 0⟩,
   ⟨1, 86400, 10, "a", 1, 1, "SP", 5, 0⟩]

/-- Counterexample to C1 as stated: for the non-empty table `splitOrder`,
whose single order id has rows on two different days, the per-day distinct
counts sum to 2 while the input has 1 distinct order id. -/
theorem c1_cex :
    splitOrder ≠ [] ∧
    ((prepare_daily_orders splitOrder).map DailyRow.total_orders).sum = 2 ∧
    nuniqueOrders splitOrder = 1 := by
  refine ⟨by decide, by decide, by decide⟩

/-- The set of distinct order ids approved on day `d`. -/
def orderIdsOn (df : List Row) (d : ℕ) : Finset ℕ :=
  ((rowsOn df d).map Row.order_id).toFinset

/-- C1 amended: for every non-empty table in which all rows bearing the
same order id are approved on the same calendar day (as holds when an
order's line items share one approval timestamp), the per-day distinct
order counts of `prepare_daily_orders` sum to the distinct order-id count
of the input. -/
theorem c1_amended (df : List Row) (hne : df ≠ [])
    (hsame : ∀ r ∈ df, ∀ r' ∈ df, r.order_id = r'.order_id →
      dayOf r.order_approved_at = dayOf r'.order_approved_at) :
    ((prepare_daily_orders df).map DailyRow.total_orders).sum =
      nuniqueOrders df := by
  have hne' : approvedDays df ≠ [] := by
    simpa [approvedDays, List.map_eq_nil_iff] using hne
  obtain ⟨a, ha⟩ : ∃ a, (approvedDays df).min? = some a := by
    cases h : (approvedDays df).min? with
    | none => exact absurd (List.min?_eq_none_iff.1 h) hne'
    | some a => exact ⟨a, rfl⟩
  obtain ⟨b, hb⟩ : ∃ b, (approvedDays df).max? = some b := by
    cases h : (approvedDays df).max? with
    | none => exact absurd (List.max?_eq_none_iff.1 h) hne'
    | some b => exact ⟨b, rfl⟩
  have hmin := (List.min?_eq_some_iff'.1 ha).2
  have hmax := (List.max?_eq_some_iff'.1 hb).2
  have hspan := daySpan_eq df a b ha hb
  have hnodup : (daySpan df).Nodup := by
    rw [hspan]; exact List.nodup_range' _ _
  have hdisj : ∀ x ∈ (daySpan df).toFinset, ∀ y ∈ (daySpan df).toFinset,
      x ≠ y → Disjoint (orderIdsOn df x) (orderIdsOn df y) := by
    intro x _ y _ hxy
    rw [Finset.disjoint_left]
    intro i hix hiy
    simp only [orderIdsOn, rowsOn, List.mem_toFinset, List.mem_map,
      List.mem_filter, beq_iff_eq] at hix hiy
    obtain ⟨r, ⟨hr, hrx⟩, hri⟩ := hix
    obtain ⟨r', ⟨hr', hry⟩, hri'⟩ := hiy
    exact hxy (hrx ▸ hry ▸ hsame r hr r' hr' (hri.trans hri'.symm))
  have hbi : (daySpan df).toFinset.biUnion (orderIdsOn df) =
      (df.map Row.order_id).toFinset := by
    ext i
    simp only [Finset.mem_biUnion, List.mem_toFinset, orderIdsOn, rowsOn,
      List.mem_map, List.mem_filter, beq_iff_eq]
    constructor
    · rintro ⟨d, _, r, ⟨hr, _⟩, rfl⟩
      exact ⟨r, hr, rfl⟩
    · rintro ⟨r, hr, rfl⟩
      refine ⟨dayOf r.order_approved_at, ?_, r, ⟨hr, rfl⟩, rfl⟩
      rw [← List.mem_toFinset, hspan]
      rw [List.mem_toFinset, List.mem_range'_1]
      have h1 := hmin _ (List.mem_map_of_mem _ hr)
      have h2 := hmax _ (List.mem_map_of_mem _ hr)
      omega
  have hfun : (DailyRow.total_orders ∘ fun d =>
      DailyRow.mk d (nuniqueOrders (rowsOn df d)) (sumPayments (rowsOn df d)))
      = fun d => (orderIdsOn df d).card := by
    funext d
    show nuniqueOrders (rowsOn df d) = (orderIdsOn df d).card
    rw [orderIdsOn, List.card_toFinset]
    rfl
  rw [prepare_daily_orders, List.map_map, hfun,
    ← List.sum_toFinset _ hnodup, ← Finset.card_biUnion hdisj, hbi,
    List.card_toFinset]
  rfl

/-- Two line items of order 1 on day 0 plus order 2 on day 1: every order
id stays within one day. -/
def twoOrders : List Row :=
  [⟨1, 0, 10, "a", 1, 1, "SP", 5, 0⟩,
   ⟨1, 100, 5, "a", 1, 1, "SP", 5, 0⟩,
   ⟨2, 86450, 7, "a", 1, 2, "SP", 5, 0⟩]

/-- Witness for C1 (amended) at a concrete table: 1 + 1 = 2 distinct
orders. -/
theorem c1_witness :
    ((prepare_daily_orders twoOrders).map DailyRow.total_orders).sum =
      nuniqueOrders twoOrders :=
  c1_amended twoOrders (by decide) (by decide)

/-! ## C5: the review-score mode

The chain below shows that `idxmax` applied to the stably descending-sorted
count list returns the earliest pair with maximal count, and that
`keepFirstBy` preserves the order of first occurrences, so the mode is the
first score of the column attaining the maximal count. -/

theorem mem_insertLe {α : Type} (le : α → α → Bool) (a x : α) :
    ∀ (l : List α), x ∈ insertLe le a l ↔ x = a ∨ x ∈ l := by
  intro l
  induction l with
  | nil => simp [insertLe]
  | cons b t ih =>
    simp only [insertLe]
    by_cases h : le a b = true
    · rw [if_pos h]
      simp [List.mem_cons]
    · rw [if_neg h]
      simp only [List.mem_cons, ih]
      tauto

theorem mem_sortLe {α : Type} (le : α → α → Bool) (x : α) :
    ∀ (l : List α), x ∈ sortLe le l ↔ x ∈ l := by
  intro l
  induction l with
  | nil => simp [sortLe]
  | cons a t ih =>
    simp only [sortLe, mem_insertLe, ih, List.mem_cons]

/-- The earliest pair of maximal second component (the reference picture
of "first maximum encountered"): later pairs replace the current choice
only when strictly greater. -/
def firstMaxPair {α : Type} : List (α × ℕ) → Option (α × ℕ)
  | [] => none
  | p :: ps =>
    match firstMaxPair ps with
    | none => some p
    | some q => if q.2 ≤ p.2 then some p else some q

theorem firstMaxPair_spec {α : Type} :
    ∀ (l : List (α × ℕ)), l ≠ [] →
      ∃ p, firstMaxPair l = some p ∧ p ∈ l ∧ (∀ q ∈ l, q.2 ≤ p.2) ∧
        ∃ l1 l2, l = l1 ++ p :: l2 ∧ ∀ q ∈ l1, q.2 < p.2 := by
  intro l
  induction l with
  | nil => intro h; exact absurd rfl h
  | cons p0 ps ih =>
    intro _
    by_cases hps : ps = []
    · subst hps
      refine ⟨p0, rfl, List.mem_cons_self _ _, ?_, [], [], rfl, by simp⟩
      intro q hq
      rcases List.mem_cons.1 hq with rfl | hq'
      · exact le_refl _
      · simp at hq'
    · obtain ⟨q, hq, hqmem, hqmax, l1, l2, hsplit, hl1⟩ := ih hps
      by_cases hle : q.2 ≤ p0.2
      · refine ⟨p0, ?_, List.mem_cons_self _ _, ?_, [], ps, rfl, by simp⟩
        · simp only [firstMaxPair, hq]
          rw [if_pos hle]
        · intro r hr
          rcases List.mem_cons.1 hr with rfl | hr'
          · exact le_refl _
          · exact le_trans (hqmax r hr') hle
      · refine ⟨q, ?_, List.mem_cons_of_mem _ hqmem, ?_, p0 :: l1, l2, ?_, ?_⟩
        · simp only [firstMaxPair, hq]
          rw [if_neg hle]
        · intro r hr
          rcases List.mem_cons.1 hr with rfl | hr'
          · exact le_of_lt (Nat.lt_of_not_le hle)
          · exact hqmax r hr'
        · rw [hsplit]; rfl
        · intro r hr
          rcases List.mem_cons.1 hr with rfl | hr'
          · exact Nat.lt_of_not_le hle
          · exact hl1 r hr'

theorem head?_sortLe_countDesc {α : Type} :
    ∀ (l : List (α × ℕ)), (sortLe countDesc l).head? = firstMaxPair l := by
  intro l
  induction l with
  | nil => rfl
  | cons p ps ih =>
    show (insertLe countDesc p (sortLe countDesc ps)).head? = firstMaxPair (p :: ps)
    cases hps : sortLe countDesc ps with
    | nil =>
      have hnil : ps = [] := by
        by_contra hne
        obtain ⟨q, hq⟩ := List.exists_mem_of_ne_nil ps hne
        have hmem := (mem_sortLe countDesc q ps).2 hq
        rw [hps] at hmem
        simp at hmem
      subst hnil
      rfl
    | cons q rest =>
      have hq : firstMaxPair ps = some q := by
        rw [← ih, hps]
        rfl
      simp only [insertLe, firstMaxPair, hq]
      by_cases hle : countDesc p q = true
      · rw [if_pos hle, if_pos (by simpa [countDesc] using hle)]
        rfl
      · rw [if_neg hle, if_neg (by simpa [countDesc] using hle)]
        rfl

theorem foldl_max_const (p : ℕ × ℕ) :
    ∀ (ps : List (ℕ × ℕ)), (∀ q ∈ ps, q.2 ≤ p.2) →
      ps.foldl (fun best q => if best.2 < q.2 then q else best) p = p := by
  intro ps
  induction ps with
  | nil => intro _; rfl
  | cons q qs ih =>
    intro h
    simp only [List.foldl_cons]
    rw [if_neg (Nat.not_lt.2 (h q (List.mem_cons_self _ _)))]
    exact ih (fun r hr => h r (List.mem_cons_of_mem _ hr))

theorem idxmax_cons_of_max (p : ℕ × ℕ) (ps : List (ℕ × ℕ))
    (h : ∀ q ∈ ps, q.2 ≤ p.2) : idxmax (p :: ps) = some p.1 := by
  simp only [idxmax]
  rw [foldl_max_const p ps h]

theorem map_eq_append_cons {α β : Type} (g : α → β) :
    ∀ (us : List α) (l1 : List β) (p : β) (l2 : List β),
      us.map g = l1 ++ p :: l2 →
      ∃ u1 m u2, us = u1 ++ m :: u2 ∧ u1.map g = l1 ∧ g m = p ∧
        u2.map g = l2 := by
  intro us
  induction us with
  | nil =>
    intro l1 p l2 h
    rw [List.map_nil] at h
    exact absurd h.symm (List.append_ne_nil_of_right_ne_nil _ (by simp))
  | cons a t ih =>
    intro l1 p l2 h
    cases l1 with
    | nil =>
      rw [List.map_cons, List.nil_append] at h
      injection h with h1 h2
      exact ⟨[], a, t, rfl, rfl, h1, h2⟩
    | cons b l1' =>
      rw [List.map_cons, List.cons_append] at h
      injection h with h1 h2
      obtain ⟨u1, m, u2, he, hm1, hm2, hm3⟩ := ih l1' p l2 h2
      exact ⟨a :: u1, m, u2, by rw [List.cons_append, he],
        by rw [List.map_cons, hm1, h1], hm2, hm3⟩

theorem mem_split_first {α : Type} [DecidableEq α] {x : α} :
    ∀ {l : List α}, x ∈ l → ∃ pre post, l = pre ++ x :: post ∧ x ∉ pre := by
  intro l
  induction l with
  | nil => intro h; simp at h
  | cons a t ih =>
    intro h
    by_cases hxa : x = a
    · subst hxa
      exact ⟨[], t, rfl, by simp⟩
    · rcases List.mem_cons.1 h with h' | h'
      · exact absurd h' hxa
      · obtain ⟨pre, post, he, hn⟩ := ih h'
        refine ⟨a :: pre, post, by rw [List.cons_append, he], ?_⟩
        simp only [List.mem_cons, not_or]
        exact ⟨hxa, hn⟩

theorem length_le_of_first_split {α : Type} (m : α) :
    ∀ (pre0 pre post0 post : List α), m ∉ pre0 →
      pre0 ++ m :: post0 = pre ++ m :: post → pre0.length ≤ pre.length := by
  intro pre0
  induction pre0 with
  | nil =>
    intro pre post0 post _ _
    simp
  | cons a t ih =>
    intro pre post0 post hm he
    cases pre with
    | nil =>
      rw [List.nil_append] at he
      rw [List.cons_append] at he
      injection he with h1 _
      exact absurd (List.mem_cons.2 (Or.inl h1.symm)) hm
    | cons b pre' =>
      rw [List.cons_append, List.cons_append] at he
      injection he with _ h2
      have hle := ih pre' post0 post
        (fun hmem => hm (List.mem_cons_of_mem _ hmem)) h2
      simpa using Nat.succ_le_succ hle

theorem keepFirstByAux_before {α β : Type} [DecidableEq β] (f : α → β) :
    ∀ (l : List α) (seen : List β) (u1 u2 : List α) (a b : α),
      keepFirstByAux f seen l = u1 ++ a :: u2 → b ∈ u2 →
      ∃ pre post, l = pre ++ a :: post ∧ ∀ y ∈ pre, f y ≠ f b := by
  intro l
  induction l with
  | nil =>
    intro seen u1 u2 a b he _
    exact absurd he.symm (List.append_ne_nil_of_right_ne_nil _ (by simp))
  | cons h0 t ih =>
    intro seen u1 u2 a b he hb
    simp only [keepFirstByAux] at he
    by_cases hh : f h0 ∈ seen
    · rw [if_pos hh] at he
      obtain ⟨pre, post, he', hpre⟩ := ih seen u1 u2 a b he hb
      refine ⟨h0 :: pre, post, by rw [List.cons_append, he'], ?_⟩
      intro y hy
      rcases List.mem_cons.1 hy with hy0 | hy'
      · rw [hy0]
        have hbmem : b ∈ keepFirstByAux f seen t := by
          rw [he]
          exact List.mem_append_right _ (List.mem_cons_of_mem _ hb)
        exact fun hfe => (mem_keepFirstByAux hbmem).2 (hfe ▸ hh)
      · exact hpre y hy'
    · rw [if_neg hh] at he
      cases u1 with
      | nil =>
        rw [List.nil_append] at he
        injection he with h1 h2
        subst h1
        exact ⟨[], t, rfl, by simp⟩
      | cons u u1' =>
        rw [List.cons_append] at he
        injection he with h1 h2
        obtain ⟨pre, post, he', hpre⟩ := ih (f h0 :: seen) u1' u2 a b h2 hb
        refine ⟨h0 :: pre, post, by rw [List.cons_append, he'], ?_⟩
        intro y hy
        rcases List.mem_cons.1 hy with hy0 | hy'
        · rw [hy0]
          have hbmem : b ∈ keepFirstByAux f (f h0 :: seen) t := by
            rw [h2]
            exact List.mem_append_right _ (List.mem_cons_of_mem _ hb)
          have hnotin := (mem_keepFirstByAux hbmem).2
          simp only [List.mem_cons, not_or] at hnotin
          exact fun hfe => hnotin.1 hfe.symm
        · exact hpre y hy'

theorem find?_first_of_split {α : Type} (p : α → Bool) (pre post : List α)
    (m : α) (hpre : ∀ x ∈ pre, ¬p x = true) (hm : p m = true) :
    List.find? p (pre ++ m :: post) = some m := by
  rw [List.find?_append, List.find?_eq_none.2 hpre,
    List.find?_cons_of_pos post hm]
  rfl

/-- C5: on a non-empty table, the mode returned by
`analyze_review_scores` is a score of maximal count in the review-score
column, and scanning the column in the table's existing order, the first
score whose count is maximal is exactly the mode (ties broken by first
occurrence). -/
theorem c5_mode_first_max (df : List Row) (h : df ≠ []) :
    ∃ m, (analyze_review_scores df).2 = some m ∧
      m ∈ df.map Row.review_score ∧
      (∀ s ∈ df.map Row.review_score,
        List.count s (df.map Row.review_score) ≤
          List.count m (df.map Row.review_score)) ∧
      List.find?
        (fun s => List.count s (df.map Row.review_score) ==
          List.count m (df.map Row.review_score)) (df.map Row.review_score)
        = some m := by
  have hslne : df.map Row.review_score ≠ [] := by
    simpa [List.map_eq_nil_iff] using h
  obtain ⟨x0, hx0⟩ := List.exists_mem_of_ne_nil _ hslne
  have hx0us : x0 ∈ keepFirstBy (fun s => s) (df.map Row.review_score) :=
    mem_keepFirstByAux_of_mem hx0 (by simp)
  have hcsne : (keepFirstBy (fun s => s) (df.map Row.review_score)).map
      (fun s => (s, (df.map Row.review_score).count s)) ≠ [] := by
    intro hnil
    rw [List.map_eq_nil_iff] at hnil
    rw [hnil] at hx0us
    simp at hx0us
  obtain ⟨p, hp, hpmem, hpmax, l1, l2, hsplit, hl1⟩ :=
    firstMaxPair_spec _ hcsne
  obtain ⟨m, hmus, hmp⟩ := List.mem_map.1 hpmem
  subst hmp
  have hmsl : m ∈ df.map Row.review_score := (mem_keepFirstByAux hmus).1
  have hmode : (analyze_review_scores df).2 = some m := by
    show idxmax (value_counts df) = some m
    have hhead : (sortLe countDesc ((keepFirstBy (fun s => s)
        (df.map Row.review_score)).map
          (fun s => (s, (df.map Row.review_score).count s)))).head?
        = some (m, (df.map Row.review_score).count m) := by
      rw [head?_sortLe_countDesc, hp]
    cases hsort : sortLe countDesc ((keepFirstBy (fun s => s)
        (df.map Row.review_score)).map
          (fun s => (s, (df.map Row.review_score).count s))) with
    | nil =>
      rw [hsort] at hhead
      simp at hhead
    | cons q tail =>
      rw [hsort] at hhead
      simp only [List.head?_cons, Option.some.injEq] at hhead
      subst hhead
      show idxmax (sortLe countDesc _) = _
      rw [hsort]
      apply idxmax_cons_of_max
      intro r hr
      have hrcs := (mem_sortLe countDesc r _).1
        (by rw [hsort]; exact List.mem_cons_of_mem _ hr)
      exact hpmax r hrcs
  refine ⟨m, hmode, hmsl, ?_, ?_⟩
  · intro s hs
    have hsus : s ∈ keepFirstBy (fun s => s) (df.map Row.review_score) :=
      mem_keepFirstByAux_of_mem hs (by simp)
    have hscs := List.mem_map_of_mem
      (fun s => (s, (df.map Row.review_score).count s)) hsus
    exact hpmax _ hscs
  · obtain ⟨pre0, post0, hsl0, hnpre⟩ := mem_split_first hmsl
    have hfind := find?_first_of_split
      (fun s => (df.map Row.review_score).count s ==
        (df.map Row.review_score).count m) pre0 post0 m ?_ (by simp)
    · rw [← hsl0] at hfind
      exact hfind
    · intro x hx
      simp only [beq_iff_eq]
      have hxm : x ≠ m := fun he => hnpre (he ▸ hx)
      suffices hlt : (df.map Row.review_score).count x <
          (df.map Row.review_score).count m by omega
      have hxsl : x ∈ df.map Row.review_score := by
        rw [hsl0]
        exact List.mem_append_left _ hx
      have hxus : x ∈ keepFirstBy (fun s => s) (df.map Row.review_score) :=
        mem_keepFirstByAux_of_mem hxsl (by simp)
      obtain ⟨u1, m', u2, husplit, hmap1, hm', hmap2⟩ :=
        map_eq_append_cons (fun s => (s, (df.map Row.review_score).count s))
          (keepFirstBy (fun s => s) (df.map Row.review_score)) l1 _ l2 hsplit
      have hm'm : m' = m := by
        simpa using congrArg Prod.fst hm'
      rw [hm'm] at husplit
      rw [husplit] at hxus
      rcases List.mem_append.1 hxus with hx1 | hx2
      · have hxl1 : (x, (df.map Row.review_score).count x) ∈ l1 := by
          rw [← hmap1]
          exact List.mem_map_of_mem _ hx1
        simpa using hl1 _ hxl1
      · rcases List.mem_cons.1 hx2 with heq | hx2'
        · exact absurd heq hxm
        · exfalso
          obtain ⟨pre, post, hsl1, hpre1⟩ :=
            keepFirstByAux_before (fun s => s) (df.map Row.review_score)
              [] u1 u2 m x husplit hx2'
          have hlen := length_le_of_first_split m pre0 pre post0 post hnpre
            (hsl0.symm.trans hsl1)
          have hpp : pre0 <+: pre :=
            List.prefix_of_prefix_length_le ⟨m :: post0, hsl0.symm⟩
              ⟨m :: post, hsl1.symm⟩ hlen
          exact hpre1 x (hpp.subset hx) rfl

/-- Scores [2, 5, 5, 2]: scores 2 and 5 tie with count 2; 2 comes first. -/
def tieDf : List Row :=
  [⟨1, 0, 10, "a", 1, 1, "SP", 2, 0⟩,
   ⟨2, 1, 10, "a", 1, 2, "SP", 5, 0⟩,
   ⟨3, 2, 10, "a", 1, 3, "SP", 5, 0⟩,
   ⟨4, 3, 10, "a", 1, 4, "SP", 2, 0⟩]

/-- Witness for C5 at a concrete table with a tie. -/
theorem c5_witness :
    ∃ m, (analyze_review_scores tieDf).2 = some m ∧
      m ∈ tieDf.map Row.review_score ∧
      (∀ s ∈ tieDf.map Row.review_score,
        List.count s (tieDf.map Row.review_score) ≤
          List.count m (tieDf.map Row.review_score)) ∧
      List.find?
        (fun s => List.count s (tieDf.map Row.review_score) ==
          List.count m (tieDf.map Row.review_score))
        (tieDf.map Row.review_score) = some m :=
  c5_mode_first_max tieDf (by decide)

end Dashboard
